import Mathlib

/-!
Verification development for the nanocode-ts agent: a shallow embedding of
the tool library (`src/tools.ts`) and the agent orchestration loop
(`runAgentLoop`) over `List Char` strings and an explicit file-system map,
together with proofs of the specified behavioural properties.

JavaScript strings are embedded as `List Char`; the file system is a map
from paths to contents; subprocess execution, glob expansion, regex testing
and JSON parsing are external effects and are modelled as oracle functions
supplied in an environment record.
-/

namespace Nanocode

/-- Coerce a Lean string literal to the `List Char` representation used
throughout the embedding. -/
def str (s : String) : List Char := s.data

/-- The newline separator used by the source's `content.split('\n')`. -/
def nlStr : List Char := ['\n']

/-- JS `String.prototype.toLowerCase`, character by character. -/
def jsToLower (s : List Char) : List Char := s.map Char.toLower

/-- JS `a || b` on strings: the empty string is falsy. -/
def jsOr (a b : List Char) : List Char := if a = [] then b else a

/-- JS `String.prototype.trim`: strip whitespace from both ends. -/
def jsTrim (s : List Char) : List Char :=
  ((s.dropWhile Char.isWhitespace).reverse.dropWhile Char.isWhitespace).reverse

/-!
JS `String.prototype.split` with a string separator scans left to right and
cuts at each non-overlapping occurrence of the separator.  The scan is
embedded with an explicit fuel argument (one unit per character consumed) so
that the definition is structurally recursive and computes by `rfl`; the
wrapper `splitGo` supplies enough fuel, and fuel irrelevance is proved below.
-/

/-- Fueled left-to-right split scan (separator assumed non-empty by the
caller `jsSplit`; with enough fuel each step consumes at least one
character). -/
def splitFuel (sep : List Char) : Nat → List Char → List (List Char)
  | _, [] => [[]]
  | 0, t => [t]
  | fuel + 1, c :: rest =>
    if sep.isPrefixOf (c :: rest) then
      [] :: splitFuel sep fuel (rest.drop (sep.length - 1))
    else
      match splitFuel sep fuel rest with
      | [] => [[c]]
      | p :: ps => (c :: p) :: ps

/-- Left-to-right split at non-overlapping occurrences of `sep`. -/
def splitGo (sep t : List Char) : List (List Char) := splitFuel sep t.length t

/-- JS `text.split(sep)`: empty separator splits into single characters
(`''.split('')` is `[]`), otherwise a left-to-right scan. -/
def jsSplit (sep text : List Char) : List (List Char) :=
  if sep = [] then text.map (fun c => [c]) else splitGo sep text

/-- The backquote character (code point 96), written by code point. -/
def backquoteChar : Char := Char.ofNat 96

/-- The single-quote character (code point 39), written by code point. -/
def quoteChar : Char := Char.ofNat 39

/-- ECMAScript GetSubstitution for a string search pattern (no capture
groups): the replacement string is expanded against the match — a doubled
dollar yields one dollar, dollar ampersand the matched substring, dollar
backquote the portion of the string preceding the match, dollar
single-quote the portion following it; any other dollar passes through
literally (with a string pattern there are no capture groups, so digit and
named references also pass through). -/
def getSubst (matched preceding following : List Char) : List Char → List Char
  | [] => []
  | [c] => [c]
  | c :: d :: rest =>
    if c = '$' then
      if d = '$' then '$' :: getSubst matched preceding following rest
      else if d = '&' then matched ++ getSubst matched preceding following rest
      else if d = backquoteChar then preceding ++ getSubst matched preceding following rest
      else if d = quoteChar then following ++ getSubst matched preceding following rest
      else '$' :: getSubst matched preceding following (d :: rest)
    else c :: getSubst matched preceding following (d :: rest)

/-- The scan of JS `text.replace(old, new)` with a string pattern,
carrying the consumed portion `pre`: at the leftmost occurrence of `old`
insert the substitution of `new` against that match and stop; with no
occurrence return the text unchanged (an empty `old` matches at
position 0). -/
def jsReplaceGo (oldS newS : List Char) (pre : List Char) : List Char → List Char
  | [] => if oldS.isPrefixOf ([] : List Char) then getSubst oldS pre [] newS else []
  | c :: rest =>
    if oldS.isPrefixOf (c :: rest) then
      getSubst oldS pre ((c :: rest).drop oldS.length) newS ++ (c :: rest).drop oldS.length
    else c :: jsReplaceGo oldS newS (pre ++ [c]) rest

/-- JS `text.replace(old, new)` with a string pattern and string
replacement. -/
def jsReplace (oldS newS text : List Char) : List Char := jsReplaceGo oldS newS [] text

/-- Fueled scan for `replaceAll` with a non-empty pattern, carrying the
consumed portion `pre`: replace each leftmost non-overlapping occurrence
by its substitution and continue after it. -/
def replAllFuel (oldS newS : List Char) : Nat → List Char → List Char → List Char
  | _, _, [] => []
  | 0, _, t => t
  | fuel + 1, pre, c :: rest =>
    if oldS.isPrefixOf (c :: rest) then
      getSubst oldS pre ((c :: rest).drop oldS.length) newS ++
        replAllFuel oldS newS fuel (pre ++ oldS) (rest.drop (oldS.length - 1))
    else c :: replAllFuel oldS newS fuel (pre ++ [c]) rest

/-- Left-to-right replace-all scan for a non-empty pattern, from a given
consumed portion. -/
def replAllFrom (oldS newS pre t : List Char) : List Char :=
  replAllFuel oldS newS t.length pre t

/-- The scan of `replaceAll` for an empty pattern: the substitution is
inserted at every position. -/
def replAllEmpty (newS : List Char) (pre : List Char) : List Char → List Char
  | [] => getSubst [] pre [] newS
  | c :: rest =>
    getSubst [] pre (c :: rest) newS ++ c :: replAllEmpty newS (pre ++ [c]) rest

/-- JS `text.replaceAll(old, new)` with a string pattern and string
replacement. -/
def jsReplaceAll (oldS newS text : List Char) : List Char :=
  if oldS = [] then replAllEmpty newS [] text
  else replAllFrom oldS newS [] text

/-- JS `hay.includes(needle)`: some position of `hay` starts with
`needle`. -/
def jsIncludes (needle : List Char) : List Char → Bool
  | [] => needle.isPrefixOf ([] : List Char)
  | c :: rest => needle.isPrefixOf (c :: rest) || jsIncludes needle rest

/-- Occurrence of `pat` in `text` at position `i`. -/
def occAt (pat text : List Char) (i : Nat) : Prop := pat <+: text.drop i

instance (pat text : List Char) (i : Nat) : Decidable (occAt pat text i) := by
  unfold occAt; infer_instance

/-- Number of positions of `text` at which `pat` occurs (occurrences may
overlap). -/
def countOcc (pat text : List Char) : Nat :=
  ((List.range (text.length + 1)).filter (fun i => decide (occAt pat text i))).length

/-! Fuel irrelevance and one-step unfolding for the fueled scans. -/

theorem splitFuel_fuelFree (sep : List Char) :
    ∀ f₁ f₂ t, t.length ≤ f₁ → t.length ≤ f₂ →
      splitFuel sep f₁ t = splitFuel sep f₂ t := by
  intro f₁
  induction f₁ with
  | zero =>
    intro f₂ t h₁ _
    cases t with
    | nil => cases f₂ <;> rfl
    | cons c rest => simp at h₁
  | succ f ih =>
    intro f₂ t h₁ h₂
    cases t with
    | nil => cases f₂ <;> rfl
    | cons c rest =>
      cases f₂ with
      | zero => simp at h₂
      | succ f' =>
        simp only [splitFuel]
        by_cases hp : sep.isPrefixOf (c :: rest)
        · simp only [hp, if_true]
          have hd : (rest.drop (sep.length - 1)).length ≤ f := by
            simp only [List.length_drop]
            simp at h₁; omega
          have hd' : (rest.drop (sep.length - 1)).length ≤ f' := by
            simp only [List.length_drop]
            simp at h₂; omega
          rw [ih f' _ hd hd']
        · simp only [hp, if_false]
          have hr : rest.length ≤ f := by simp at h₁; omega
          have hr' : rest.length ≤ f' := by simp at h₂; omega
          rw [ih f' rest hr hr']
          simp

theorem splitGo_nil (sep : List Char) : splitGo sep [] = [[]] := rfl

theorem splitGo_cons (sep : List Char) (c : Char) (rest : List Char) :
    splitGo sep (c :: rest) =
      if sep.isPrefixOf (c :: rest) then
        [] :: splitGo sep (rest.drop (sep.length - 1))
      else
        match splitGo sep rest with
        | [] => [[c]]
        | p :: ps => (c :: p) :: ps := by
  unfold splitGo
  simp only [List.length_cons, splitFuel]
  by_cases hp : sep.isPrefixOf (c :: rest)
  · simp only [hp, if_true]
    rw [splitFuel_fuelFree sep rest.length (rest.drop (sep.length - 1)).length]
    · simp [List.length_drop]
    · omega
  · simp only [hp, if_false]
    simp

theorem replAllFuel_fuelFree (oldS newS : List Char) :
    ∀ f₁ f₂ pre t, t.length ≤ f₁ → t.length ≤ f₂ →
      replAllFuel oldS newS f₁ pre t = replAllFuel oldS newS f₂ pre t := by
  intro f₁
  induction f₁ with
  | zero =>
    intro f₂ pre t h₁ _
    cases t with
    | nil => cases f₂ <;> rfl
    | cons c rest => simp at h₁
  | succ f ih =>
    intro f₂ pre t h₁ h₂
    cases t with
    | nil => cases f₂ <;> rfl
    | cons c rest =>
      cases f₂ with
      | zero => simp at h₂
      | succ f' =>
        simp only [replAllFuel]
        by_cases hp : oldS.isPrefixOf (c :: rest)
        · simp only [hp, if_true]
          have hd : (rest.drop (oldS.length - 1)).length ≤ f := by
            simp only [List.length_drop]; simp at h₁; omega
          have hd' : (rest.drop (oldS.length - 1)).length ≤ f' := by
            simp only [List.length_drop]; simp at h₂; omega
          rw [ih f' _ _ hd hd']
        · simp only [hp, if_false]
          have hr : rest.length ≤ f := by simp at h₁; omega
          have hr' : rest.length ≤ f' := by simp at h₂; omega
          rw [ih f' _ rest hr hr']
          simp

theorem replAllFrom_nil (oldS newS pre : List Char) :
    replAllFrom oldS newS pre [] = [] := rfl

theorem replAllFrom_cons (oldS newS pre : List Char) (c : Char) (rest : List Char) :
    replAllFrom oldS newS pre (c :: rest) =
      if oldS.isPrefixOf (c :: rest) then
        getSubst oldS pre ((c :: rest).drop oldS.length) newS ++
          replAllFrom oldS newS (pre ++ oldS) (rest.drop (oldS.length - 1))
      else c :: replAllFrom oldS newS (pre ++ [c]) rest := by
  unfold replAllFrom
  simp only [List.length_cons, replAllFuel]
  by_cases hp : oldS.isPrefixOf (c :: rest)
  · simp only [hp, if_true]
    rw [replAllFuel_fuelFree oldS newS rest.length
      (rest.drop (oldS.length - 1)).length (pre ++ oldS)]
    · simp [List.length_drop]
    · omega
  · simp only [hp, if_false]
    simp

/-! Occurrences: basic characterizations. -/

theorem isPre_eq (l₁ l₂ : List Char) : l₁.isPrefixOf l₂ = true ↔ l₁ <+: l₂ :=
  List.isPrefixOf_iff_prefix

theorem infixConsIff (pat : List Char) (c : Char) (rest : List Char) :
    pat <:+: (c :: rest) ↔ pat <+: (c :: rest) ∨ pat <:+: rest := by
  constructor
  · rintro ⟨s, t, h⟩
    cases s with
    | nil => exact Or.inl ⟨t, by simpa using h⟩
    | cons a s' =>
      refine Or.inr ⟨s', t, ?_⟩
      simp only [List.cons_append] at h
      exact (List.cons_eq_cons.mp h).2
  · rintro (⟨t, h⟩ | ⟨s, t, h⟩)
    · exact ⟨[], t, by simpa using h⟩
    · exact ⟨c :: s, t, by simp [← h]⟩

theorem jsIncludes_iff (pat : List Char) :
    ∀ hay, jsIncludes pat hay = true ↔ pat <:+: hay := by
  intro hay
  induction hay with
  | nil =>
    simp only [jsIncludes, isPre_eq, List.infix_nil]
    constructor
    · intro h; exact List.eq_nil_of_prefix_nil h ▸ rfl
    · intro h; subst h; exact List.nil_prefix
  | cons c rest ih =>
    simp only [jsIncludes, Bool.or_eq_true, isPre_eq, ih, infixConsIff]

theorem occAt_cons_succ (pat : List Char) (c : Char) (rest : List Char) (i : Nat) :
    occAt pat (c :: rest) (i + 1) ↔ occAt pat rest i := by
  simp [occAt, List.drop_succ_cons]

theorem occAt_zero (pat text : List Char) : occAt pat text 0 ↔ pat <+: text := by
  simp [occAt]

theorem countOcc_cons (pat : List Char) (c : Char) (rest : List Char) :
    countOcc pat (c :: rest) = (if pat <+: (c :: rest) then 1 else 0) + countOcc pat rest := by
  unfold countOcc
  simp only [List.length_cons]
  rw [List.range_succ_eq_map, List.filter_cons]
  have hcomp : ((fun i => decide (occAt pat (c :: rest) i)) ∘ Nat.succ) =
      fun i => decide (occAt pat rest i) := by
    funext i
    simp [Function.comp, occAt_cons_succ pat c rest i]
  simp only [List.filter_map, hcomp, List.length_map]
  by_cases h0 : pat <+: (c :: rest)
  · have : decide (occAt pat (c :: rest) 0) = true := by
      simp [occAt_zero, h0]
    simp [this, h0]
    omega
  · have : decide (occAt pat (c :: rest) 0) = false := by
      simp [occAt_zero, h0]
    simp [this, h0]

theorem countOcc_pos (pat text : List Char) (i : Nat)
    (hi : i ≤ text.length) (h : occAt pat text i) : 0 < countOcc pat text := by
  unfold countOcc
  have hmem : i ∈ (List.range (text.length + 1)).filter
      (fun j => decide (occAt pat text j)) := by
    rw [List.mem_filter]
    exact ⟨List.mem_range.mpr (by omega), by simpa using h⟩
  exact List.length_pos.mpr (List.ne_nil_of_mem hmem)

theorem countOcc_drop_le (pat : List Char) :
    ∀ text m, countOcc pat (text.drop m) ≤ countOcc pat text := by
  intro text
  induction text with
  | nil => intro m; simp
  | cons c rest ih =>
    intro m
    cases m with
    | zero => simp
    | succ m' =>
      rw [List.drop_succ_cons, countOcc_cons]
      exact le_trans (ih m') (Nat.le_add_left _ _)

theorem infix_of_occ (pat text : List Char) (i : Nat) (h : occAt pat text i) :
    pat <:+: text := by
  obtain ⟨t, ht⟩ := h
  exact ⟨text.take i, t, by rw [List.append_assoc, ht, List.take_append_drop]⟩

theorem infix_to_occ (pat text : List Char) (h : pat <:+: text) :
    ∃ i, i ≤ text.length ∧ occAt pat text i := by
  obtain ⟨s, t, hst⟩ := h
  refine ⟨s.length, ?_, ?_⟩
  · rw [← hst]; simp [List.length_append]
  · unfold occAt
    rw [← hst, List.append_assoc, List.drop_left]
    exact ⟨t, rfl⟩

theorem countOcc_zero_of_not_infix (pat text : List Char) (h : ¬ pat <:+: text) :
    countOcc pat text = 0 := by
  by_contra hne
  have hpos : 0 < countOcc pat text := Nat.pos_of_ne_zero hne
  unfold countOcc at hpos
  obtain ⟨i, hi⟩ := List.exists_mem_of_length_pos hpos
  rw [List.mem_filter] at hi
  exact h (infix_of_occ pat text i (by simpa using hi.2))

/-! Structure of the split scan. -/

theorem splitGo_ne_nil (sep : List Char) : ∀ t, splitGo sep t ≠ [] := by
  have H : ∀ n t, List.length t ≤ n → splitGo sep t ≠ [] := by
    intro n
    induction n with
    | zero =>
      intro t h
      have ht : t = [] := by
        cases t with
        | nil => rfl
        | cons c r => simp at h
      rw [ht, splitGo_nil]; simp
    | succ n ih =>
      intro t h
      cases t with
      | nil => rw [splitGo_nil]; simp
      | cons c rest =>
        rw [splitGo_cons]
        by_cases hp : sep.isPrefixOf (c :: rest)
        · simp [hp]
        · simp only [hp, if_false]
          cases hsp : splitGo sep rest with
          | nil => simp
          | cons p ps => simp
  intro t; exact H t.length t (le_refl _)

theorem splitGo_len_le (sep : List Char) :
    ∀ t, (splitGo sep t).length ≤ countOcc sep t + 1 := by
  have H : ∀ n t, List.length t ≤ n → (splitGo sep t).length ≤ countOcc sep t + 1 := by
    intro n
    induction n with
    | zero =>
      intro t h
      have ht : t = [] := by
        cases t with
        | nil => rfl
        | cons c r => simp at h
      rw [ht, splitGo_nil]; simp
    | succ n ih =>
      intro t h
      cases t with
      | nil => rw [splitGo_nil]; simp
      | cons c rest =>
        rw [splitGo_cons, countOcc_cons]
        simp only [List.length_cons] at h
        by_cases hp : sep.isPrefixOf (c :: rest)
        · simp only [hp, if_true, List.length_cons]
          have hpre : sep <+: (c :: rest) := (isPre_eq _ _).mp hp
          have hdl : (rest.drop (sep.length - 1)).length ≤ n := by
            simp only [List.length_drop]; omega
          have h1 := ih (rest.drop (sep.length - 1)) hdl
          have h2 := countOcc_drop_le sep rest (sep.length - 1)
          simp only [hpre, if_true]
          omega
        · simp only [hp, if_false]
          have hpre : ¬ sep <+: (c :: rest) := fun hc => hp ((isPre_eq _ _).mpr hc)
          simp only [hpre, if_false]
          have h1 := ih rest (by omega)
          cases hsp : splitGo sep rest with
          | nil => exact absurd hsp (splitGo_ne_nil sep rest)
          | cons p ps =>
            rw [hsp] at h1
            simpa using h1
  intro t; exact H t.length t (le_refl _)

theorem splitGo_eq_single (sep : List Char) :
    ∀ t, ¬ sep <:+: t → splitGo sep t = [t] := by
  have H : ∀ n t, List.length t ≤ n → ¬ sep <:+: t → splitGo sep t = [t] := by
    intro n
    induction n with
    | zero =>
      intro t h _
      have ht : t = [] := by
        cases t with
        | nil => rfl
        | cons c r => simp at h
      rw [ht, splitGo_nil]
    | succ n ih =>
      intro t h hni
      cases t with
      | nil => rw [splitGo_nil]
      | cons c rest =>
        simp only [List.length_cons] at h
        have hnr : ¬ sep <:+: rest := fun hc => hni ((infixConsIff sep c rest).mpr (Or.inr hc))
        have hp : ¬ sep.isPrefixOf (c :: rest) := by
          intro hc
          exact hni ((infixConsIff sep c rest).mpr (Or.inl ((isPre_eq _ _).mp hc)))
        rw [splitGo_cons]
        rw [ih rest (by omega) hnr]
        simp [hp]
  intro t; exact H t.length t (le_refl _)

theorem splitGo_headPre (sep : List Char) :
    ∀ t p ps, splitGo sep t = p :: ps → p <+: t := by
  have H : ∀ n t, List.length t ≤ n → ∀ p ps, splitGo sep t = p :: ps → p <+: t := by
    intro n
    induction n with
    | zero =>
      intro t h p ps heq
      have ht : t = [] := by
        cases t with
        | nil => rfl
        | cons c r => simp at h
      subst ht
      rw [splitGo_nil] at heq
      cases heq
      exact List.nil_prefix
    | succ n ih =>
      intro t h p ps heq
      cases t with
      | nil =>
        rw [splitGo_nil] at heq
        cases heq
        exact List.nil_prefix
      | cons c rest =>
        simp only [List.length_cons] at h
        rw [splitGo_cons] at heq
        by_cases hp : sep.isPrefixOf (c :: rest)
        · simp only [hp, if_true] at heq
          cases heq
          exact List.nil_prefix
        · simp only [hp, Bool.false_eq_true, if_false] at heq
          cases hsp : splitGo sep rest with
          | nil => exact absurd hsp (splitGo_ne_nil sep rest)
          | cons q qs =>
            rw [hsp] at heq
            simp only [List.cons.injEq] at heq
            obtain ⟨hp1, hp2⟩ := heq
            subst hp1
            have hq : q <+: rest := ih rest (by omega) q qs hsp
            obtain ⟨u, hu⟩ := hq
            exact ⟨u, by rw [List.cons_append, hu]⟩
  intro t; exact H t.length t (le_refl _)

theorem splitGo_parts (sep : List Char) (hs : sep ≠ []) :
    ∀ t p, p ∈ splitGo sep t → ¬ sep <:+: p := by
  have H : ∀ n t, List.length t ≤ n → ∀ p ∈ splitGo sep t, ¬ sep <:+: p := by
    intro n
    induction n with
    | zero =>
      intro t h p hp
      have ht : t = [] := by
        cases t with
        | nil => rfl
        | cons c r => simp at h
      subst ht
      rw [splitGo_nil] at hp
      simp at hp
      subst hp
      intro hinf
      exact hs ( List.infix_nil.mp hinf)
    | succ n ih =>
      intro t h p hp
      cases t with
      | nil =>
        rw [splitGo_nil] at hp
        simp at hp
        subst hp
        intro hinf
        exact hs ( List.infix_nil.mp hinf)
      | cons c rest =>
        simp only [List.length_cons] at h
        rw [splitGo_cons] at hp
        by_cases hpre : sep.isPrefixOf (c :: rest)
        · simp only [hpre, if_true, List.mem_cons] at hp
          rcases hp with hp | hp
          · subst hp
            intro hinf
            exact hs ( List.infix_nil.mp hinf)
          · have hdl : (rest.drop (sep.length - 1)).length ≤ n := by
              simp only [List.length_drop]; omega
            exact ih (rest.drop (sep.length - 1)) hdl p hp
        · simp only [hpre, Bool.false_eq_true, if_false] at hp
          cases hsp : splitGo sep rest with
          | nil => exact absurd hsp (splitGo_ne_nil sep rest)
          | cons q qs =>
            rw [hsp] at hp
            simp only [List.mem_cons] at hp
            rcases hp with hp | hp
            · subst hp
              intro hinf
              rcases (infixConsIff sep c q).mp hinf with hl | hr
              · have hq : q <+: rest := splitGo_headPre sep rest q qs hsp
                obtain ⟨u, hu⟩ := hq
                have : (c :: q) <+: (c :: rest) := ⟨u, by rw [List.cons_append, hu]⟩
                exact hpre ((isPre_eq _ _).mpr (hl.trans this))
              · exact ih rest (by omega) q (hsp ▸ List.mem_cons_self q qs) hr
            · exact ih rest (by omega) p (hsp ▸ List.mem_cons_of_mem q hp)
  intro t; exact H t.length t (le_refl _)

theorem intercalate_one (s a : List Char) : List.intercalate s [a] = a := by
  simp [List.intercalate]

theorem intercalate_cons₂ (s a : List Char) (l : List (List Char)) (hl : l ≠ []) :
    List.intercalate s (a :: l) = a ++ s ++ List.intercalate s l := by
  cases l with
  | nil => exact absurd rfl hl
  | cons b t =>
    simp [List.intercalate, List.intersperse, List.append_assoc]

/-- Substitution of a replacement string containing no dollar sign is the
literal replacement string. -/
theorem getSubst_no_dollar (m p f : List Char) :
    ∀ s : List Char, '$' ∉ s → getSubst m p f s = s := by
  intro s
  induction s with
  | nil => intro _; rfl
  | cons c rest ih =>
    intro hd
    have hc : c ≠ '$' := fun hc => hd (hc ▸ List.mem_cons_self c rest)
    have hr : '$' ∉ rest := fun hm => hd (List.mem_cons_of_mem c hm)
    cases rest with
    | nil => rfl
    | cons d rest2 =>
      simp only [getSubst, hc, if_false]
      rw [ih hr]

/-- Round trip of the split scan: joining the segments with the separator
recovers the text. -/
theorem intercalate_splitGo (sep : List Char) (hs : sep ≠ []) :
    ∀ t, List.intercalate sep (splitGo sep t) = t := by
  have H : ∀ n t, List.length t ≤ n → List.intercalate sep (splitGo sep t) = t := by
    intro n
    induction n with
    | zero =>
      intro t h
      have ht : t = [] := by
        cases t with
        | nil => rfl
        | cons c r => simp at h
      rw [ht, splitGo_nil, intercalate_one]
    | succ n ih =>
      intro t h
      cases t with
      | nil => rw [splitGo_nil, intercalate_one]
      | cons c rest =>
        simp only [List.length_cons] at h
        rw [splitGo_cons]
        by_cases hp : sep.isPrefixOf (c :: rest)
        · simp only [hp, if_true]
          obtain ⟨t2, ht2⟩ := (isPre_eq _ _).mp hp
          have hrem : (c :: rest).drop sep.length = rest.drop (sep.length - 1) := by
            cases hsep : sep with
            | nil => exact absurd hsep hs
            | cons x xs => simp [List.drop_succ_cons]
          have ht2d : t2 = rest.drop (sep.length - 1) := by
            rw [← hrem, ← ht2, List.drop_left]
          have hdl : (rest.drop (sep.length - 1)).length ≤ n := by
            simp only [List.length_drop]; omega
          rw [intercalate_cons₂ sep [] _ (splitGo_ne_nil sep (rest.drop (sep.length - 1)))]
          rw [ih _ hdl]
          rw [List.nil_append, ← ht2d, ht2]
        · simp only [hp, Bool.false_eq_true, if_false]
          cases hsp : splitGo sep rest with
          | nil => exact absurd hsp (splitGo_ne_nil sep rest)
          | cons q qs =>
            have hih := ih rest (by omega)
            rw [hsp] at hih
            cases qs with
            | nil =>
              rw [intercalate_one] at hih
              rw [intercalate_one, hih]
            | cons r rs =>
              rw [intercalate_cons₂ sep q (r :: rs) (by simp)] at hih
              rw [intercalate_cons₂ sep (c :: q) (r :: rs) (by simp)]
              rw [← hih]
              simp [List.cons_append, List.append_assoc]
  intro t; exact H t.length t (le_refl _)

/-- Interleaving of split segments with the per-match substitutions: the
text preceding the k-th match is the consumed portion plus the segments
and matches before it, and the text following it is the remaining
segments joined by the pattern. -/
def joinSubst (oldS newS : List Char) (pre : List Char) : List (List Char) → List Char
  | [] => []
  | [p] => p
  | p :: ps =>
    p ++ getSubst oldS (pre ++ p) (List.intercalate oldS ps) newS ++
      joinSubst oldS newS (pre ++ p ++ oldS) ps

/-- With a dollar-free replacement the interleaving degenerates to the
plain intercalation. -/
theorem joinSubst_no_dollar (oldS newS : List Char) (hd : '$' ∉ newS) :
    ∀ l pre, joinSubst oldS newS pre l = List.intercalate newS l := by
  intro l
  induction l with
  | nil =>
    intro pre
    simp [joinSubst, List.intercalate]
  | cons p ps ih =>
    intro pre
    cases ps with
    | nil => simp [joinSubst, intercalate_one]
    | cons q qs =>
      show p ++ getSubst oldS (pre ++ p) (List.intercalate oldS (q :: qs)) newS ++
          joinSubst oldS newS (pre ++ p ++ oldS) (q :: qs) =
        List.intercalate newS (p :: q :: qs)
      rw [getSubst_no_dollar _ _ _ newS hd, ih (pre ++ p ++ oldS),
        intercalate_cons₂ newS p (q :: qs) (by simp)]

/-- Replacing all with a non-empty pattern interleaves the split segments
with the per-match substitutions: every left-to-right non-overlapping
occurrence is replaced. -/
theorem replAllFrom_eq_joinSubst (oldS newS : List Char) (ho : oldS ≠ []) :
    ∀ t pre, replAllFrom oldS newS pre t = joinSubst oldS newS pre (splitGo oldS t) := by
  have H : ∀ n t, List.length t ≤ n → ∀ pre,
      replAllFrom oldS newS pre t = joinSubst oldS newS pre (splitGo oldS t) := by
    intro n
    induction n with
    | zero =>
      intro t h pre
      have ht : t = [] := by
        cases t with
        | nil => rfl
        | cons c r => simp at h
      rw [ht, splitGo_nil, replAllFrom_nil]
      rfl
    | succ n ih =>
      intro t h pre
      cases t with
      | nil =>
        rw [splitGo_nil, replAllFrom_nil]
        rfl
      | cons c rest =>
        simp only [List.length_cons] at h
        rw [replAllFrom_cons, splitGo_cons]
        by_cases hp : oldS.isPrefixOf (c :: rest)
        · simp only [hp, if_true]
          have hdl : (rest.drop (oldS.length - 1)).length ≤ n := by
            simp only [List.length_drop]; omega
          rw [ih _ hdl (pre ++ oldS)]
          cases hsp : splitGo oldS (rest.drop (oldS.length - 1)) with
          | nil => exact absurd hsp (splitGo_ne_nil oldS _)
          | cons q qs =>
            show getSubst oldS pre ((c :: rest).drop oldS.length) newS ++
                joinSubst oldS newS (pre ++ oldS) (q :: qs) =
              [] ++ getSubst oldS (pre ++ []) (List.intercalate oldS (q :: qs)) newS ++
                joinSubst oldS newS (pre ++ [] ++ oldS) (q :: qs)
            have hrem : (c :: rest).drop oldS.length = rest.drop (oldS.length - 1) := by
              cases hos : oldS with
              | nil => exact absurd hos ho
              | cons x xs => simp [List.drop_succ_cons]
            have hseg : List.intercalate oldS (q :: qs) = rest.drop (oldS.length - 1) := by
              rw [← hsp]
              exact intercalate_splitGo oldS ho _
            rw [hrem, hseg]
            simp
        · simp only [hp, Bool.false_eq_true, if_false]
          rw [ih rest (by omega) (pre ++ [c])]
          cases hsp : splitGo oldS rest with
          | nil => exact absurd hsp (splitGo_ne_nil oldS rest)
          | cons q qs =>
            cases qs with
            | nil =>
              show c :: joinSubst oldS newS (pre ++ [c]) [q] =
                joinSubst oldS newS pre [c :: q]
              rfl
            | cons r rs =>
              show c :: joinSubst oldS newS (pre ++ [c]) (q :: r :: rs) =
                joinSubst oldS newS pre ((c :: q) :: r :: rs)
              show c :: (q ++ getSubst oldS ((pre ++ [c]) ++ q)
                  (List.intercalate oldS (r :: rs)) newS ++
                  joinSubst oldS newS ((pre ++ [c]) ++ q ++ oldS) (r :: rs)) =
                (c :: q) ++ getSubst oldS (pre ++ (c :: q))
                  (List.intercalate oldS (r :: rs)) newS ++
                  joinSubst oldS newS (pre ++ (c :: q) ++ oldS) (r :: rs)
              have hpq : (pre ++ [c]) ++ q = pre ++ (c :: q) := by
                simp [List.append_assoc]
              rw [hpq]
              simp [List.cons_append, List.append_assoc]
  intro t pre; exact H t.length t (le_refl _) pre

/-- When the pattern occurs exactly once, the replace scan rewrites exactly
that span: the result is the text up to the occurrence, the substitution of
the replacement against that match, and the text after it, with `pre` the
portion already consumed. -/
theorem jsReplaceGo_uniqueOcc (oldS newS : List Char) (ho : oldS ≠ []) :
    ∀ text pre i, countOcc oldS text = 1 → occAt oldS text i →
      jsReplaceGo oldS newS pre text =
        text.take i ++
          getSubst oldS (pre ++ text.take i) (text.drop (i + oldS.length)) newS ++
          text.drop (i + oldS.length) := by
  intro text
  induction text with
  | nil =>
    intro pre i _ hocc
    obtain ⟨t, ht⟩ := hocc
    simp only [List.drop_nil] at ht
    exact absurd (List.append_eq_nil.mp ht).1 ho
  | cons c rest ih =>
    intro pre i h1 hocc
    cases i with
    | zero =>
      have hp0 : oldS <+: (c :: rest) := (occAt_zero oldS (c :: rest)).mp hocc
      have hp : oldS.isPrefixOf (c :: rest) = true := (isPre_eq _ _).mpr hp0
      simp only [jsReplaceGo, hp, if_true]
      simp
    | succ j =>
      have hjr : occAt oldS rest j := (occAt_cons_succ oldS c rest j).mp hocc
      have hj : j ≤ rest.length := by
        by_contra hgt
        obtain ⟨t, ht⟩ := hjr
        rw [List.drop_eq_nil_of_le (by omega)] at ht
        exact ho (List.append_eq_nil.mp ht).1
      have hrpos : 0 < countOcc oldS rest := countOcc_pos oldS rest j hj hjr
      have hcc := countOcc_cons oldS c rest
      have hnp : ¬ oldS <+: (c :: rest) := by
        intro hc
        rw [hcc] at h1
        simp only [hc, if_true] at h1
        omega
      have hcr : countOcc oldS rest = 1 := by
        rw [hcc] at h1
        simp only [hnp, if_false] at h1
        omega
      have hp : ¬ oldS.isPrefixOf (c :: rest) = true := fun hc => hnp ((isPre_eq _ _).mp hc)
      simp only [jsReplaceGo, hp, Bool.false_eq_true, if_false]
      rw [ih (pre ++ [c]) j hcr hjr]
      have hd : j + 1 + oldS.length = (j + oldS.length) + 1 := by omega
      rw [List.take_succ_cons, hd, List.drop_succ_cons]
      have hpre : (pre ++ [c]) ++ rest.take j = pre ++ (c :: rest.take j) := by
        simp [List.append_assoc]
      rw [hpre]
      simp [List.cons_append]

/-- The unique-occurrence characterization of JS `replace`. -/
theorem jsReplace_uniqueOcc (oldS newS : List Char) (ho : oldS ≠ []) :
    ∀ text i, countOcc oldS text = 1 → occAt oldS text i →
      jsReplace oldS newS text =
        text.take i ++
          getSubst oldS (text.take i) (text.drop (i + oldS.length)) newS ++
          text.drop (i + oldS.length) := by
  intro text i hc hocc
  unfold jsReplace
  rw [jsReplaceGo_uniqueOcc oldS newS ho text [] i hc hocc]
  simp

/-! Split at a single-character separator: line structure for `read`. -/

theorem splitGo_single_length (c : Char) :
    ∀ t : List Char, (splitGo [c] t).length = t.count c + 1 := by
  intro t
  induction t with
  | nil => rw [splitGo_nil]; simp
  | cons x rest ih =>
    rw [splitGo_cons]
    by_cases hx : x = c
    · subst hx
      have hp : [x].isPrefixOf (x :: rest) = true := by
        simp [List.isPrefixOf]
      simp only [hp, if_true, List.length_singleton, List.length_cons]
      simp [List.count_cons, ih]
    · have hp : ¬ [c].isPrefixOf (x :: rest) = true := by
        simp [List.isPrefixOf]
        intro hc
        exact absurd hc.symm hx
      simp only [hp, Bool.false_eq_true, if_false]
      cases hsp : splitGo [c] rest with
      | nil => exact absurd hsp (splitGo_ne_nil [c] rest)
      | cons q qs =>
        rw [hsp] at ih
        simp only [List.length_cons] at ih ⊢
        rw [List.count_cons]
        simp [hx, ih]

theorem splitGo_single_getLast (c : Char) :
    ∀ t : List Char, t.getLast? = some c → (splitGo [c] t).getLast? = some [] := by
  intro t
  induction t with
  | nil => intro h; simp at h
  | cons x rest ih =>
    intro h
    rw [splitGo_cons]
    by_cases hx : x = c
    · subst hx
      have hp : [x].isPrefixOf (x :: rest) = true := by simp [List.isPrefixOf]
      simp only [hp, if_true, List.length_singleton]
      cases rest with
      | nil => rw [List.drop_nil, splitGo_nil]; rfl
      | cons y rest' =>
        have hlast : (y :: rest').getLast? = some x := by
          rw [← h]; exact List.getLast?_cons_cons.symm
        have hrec := ih hlast
        have hd : (y :: rest').drop (1 - 1) = y :: rest' := by simp
        rw [hd]
        cases hq : splitGo [x] (y :: rest') with
        | nil => exact absurd hq (splitGo_ne_nil [x] (y :: rest'))
        | cons q qs =>
          rw [hq] at hrec
          rw [List.getLast?_cons_cons]
          exact hrec
    · have hxr : rest ≠ [] := by
        intro hc
        subst hc
        simp at h
        exact hx h
      have hlast : rest.getLast? = some c := by
        cases rest with
        | nil => exact absurd rfl hxr
        | cons y rest' => rw [← h]; exact List.getLast?_cons_cons.symm
      have hp : ¬ [c].isPrefixOf (x :: rest) = true := by
        simp [List.isPrefixOf]
        intro hc
        exact absurd hc.symm hx
      simp only [hp, Bool.false_eq_true, if_false]
      have hrec := ih hlast
      cases hq : splitGo [c] rest with
      | nil => exact absurd hq (splitGo_ne_nil [c] rest)
      | cons q qs =>
        rw [hq] at hrec
        cases qs with
        | nil =>
          have hlen := splitGo_single_length c rest
          rw [hq] at hlen
          simp only [List.length_singleton] at hlen
          have hcount : rest.count c = 0 := by omega
          rw [List.count_eq_zero] at hcount
          have hcmem : c ∈ rest := by
            cases hr : rest with
            | nil => exact absurd hr hxr
            | cons y rest' =>
              rw [hr] at hlast
              have hne : (y :: rest') ≠ [] := by simp
              rw [List.getLast?_eq_getLast (y :: rest') hne] at hlast
              simp only [Option.some.injEq] at hlast
              rw [← hlast]
              exact List.getLast_mem hne
          exact absurd hcmem hcount
        | cons r rs =>
          rw [List.getLast?_cons_cons]
          exact hrec


/-! File system and the tool library (src/tools.ts). -/

/-- The file system: a map from paths to file contents; `none` means the
path does not exist and `readFile` rejects. -/
def FS : Type := List Char → Option (List Char)

/-- Overwrite (create or truncate) a file, as `writeFile` does. -/
def fsWrite (fs : FS) (path content : List Char) : FS :=
  fun p => if p = path then some content else fs p

/-- The rejection of `readFile` on a missing path, stringified. -/
def enoentMsg (path : List Char) : List Char :=
  str "ENOENT: no such file or directory, open " ++ path

/-- Decimal rendering of a natural number. -/
def natChars (n : Nat) : List Char := (Nat.repr n).data

/-- Decimal rendering of an integer (the split-based `count` of edit). -/
def intChars (n : Int) : List Char := (Int.repr n).data

/-- JS `s.padStart(4)`. -/
def padStart4 (s : List Char) : List Char := List.replicate (4 - s.length) ' ' ++ s

/-- One rendered line of `read`: number padded to width 4, a bar, a space,
then the line. -/
def renderLine (n : Nat) (line : List Char) : List Char :=
  padStart4 (natChars n) ++ str "| " ++ line

/-- The end index of the `read` slice:
`end = limit ? offset + limit : lines.length` (a `limit` of 0 is falsy in
JS and behaves like no limit). -/
def readEnd (lines : List (List Char)) (offset : Nat) (limit : Option Nat) : Nat :=
  match limit with
  | some l => if l = 0 then lines.length else offset + l
  | none => lines.length

/-- The numbered, sliced line list of the `read` handler:
`lines.slice(offset, end)` mapped to numbered renderings; the shown number
is `offset + i + 1`, the true 1-based file position. -/
def readLines (content : List Char) (offset : Nat) (limit : Option Nat) :
    List (List Char) :=
  let lines := jsSplit nlStr content
  ((lines.drop offset).take (readEnd lines offset limit - offset)).mapIdx
    (fun i line => renderLine (offset + i + 1) line)

/-- The `read` tool: render the file with line numbers; a missing path is a
thrown error (caught by the dispatcher).  The schema's integer offset/limit
are modelled as naturals. -/
def read (fs : FS) (path : List Char) (offset : Nat) (limit : Option Nat) :
    Except (List Char) (List Char) :=
  match fs path with
  | none => Except.error (enoentMsg path)
  | some content => Except.ok (List.intercalate nlStr (readLines content offset limit))

/-- The `write` tool: overwrite the file, acknowledge with `'ok'`. -/
def write (fs : FS) (path content : List Char) : List Char × FS :=
  (str "ok", fsWrite fs path content)

/-- The `edit` tool: `old` must occur (else a reported error and no
write); without `all` the split-based count must not exceed one (else a
reported error naming the count and no write); then the first or every
occurrence is replaced and the file written back. -/
def edit (fs : FS) (path oldS newS : List Char) (all : Bool) :
    Except (List Char) (List Char × FS) :=
  match fs path with
  | none => Except.error (enoentMsg path)
  | some text =>
    if ¬ jsIncludes oldS text then
      Except.ok (str "error: old string not found", fs)
    else
      let count : Int := ((jsSplit oldS text).length : Int) - 1
      if ¬ all ∧ 1 < count then
        Except.ok (str "error: old string appears " ++ intChars count ++
          str " times, must be unique (or use all=true)", fs)
      else
        let updated := if all then jsReplaceAll oldS newS text else jsReplace oldS newS text
        Except.ok (str "ok", fsWrite fs path updated)

/-- Settlement of a spawned shell command: fulfilled with stdout/stderr, or
rejected with an error carrying `killed` (set on timeout), any captured
output, and a message. -/
inductive ExecOutcome where
  | success (stdout stderr : List Char)
  | failure (killed : Bool) (stdout stderr message : List Char)

/-- External-world oracles: the subprocess runner behind `bash`, the
glob engine, and the regex engine, as deterministic functions. -/
structure SysEnv where
  exec : List Char → ExecOutcome
  globMatch : List Char → List Char → List (List Char)
  regexTest : List Char → List Char → Bool

/-- The `bash` tool: trimmed combined output or `'(empty)'` on success;
the timeout sentinel when the process was killed; otherwise the failure's
stdout, else stderr, else message, else `'error'`. -/
def bash (env : SysEnv) (cmd : List Char) : List Char :=
  match env.exec cmd with
  | ExecOutcome.success out err => jsOr (jsTrim (out ++ err)) (str "(empty)")
  | ExecOutcome.failure killed out err msg =>
    if killed then str "(timed out after 30s)"
    else jsOr out (jsOr err (jsOr msg (str "error")))

/-- The helper `globToArray`: collect the glob matches, excluding any path containing
`node_modules`. -/
def globToArray (env : SysEnv) (pattern cwd : List Char) : List (List Char) :=
  (env.globMatch pattern cwd).filter (fun p => ¬ jsIncludes (str "node_modules") p)

/-- The `glob` tool. -/
def glob (env : SysEnv) (pattern dir : List Char) : List Char :=
  let ms := globToArray env pattern dir
  if ms.length = 0 then str "(no matches)" else List.intercalate nlStr ms

/-- The `grep` tool: for each included file that can be read, emit
`file:line: text` for every line the regex oracle accepts; unreadable
entries are skipped. -/
def grep (env : SysEnv) (fs : FS) (pattern dir incl : List Char) : List Char :=
  let files := globToArray env incl dir
  let results := files.flatMap (fun file =>
    match fs (dir ++ str "/" ++ file) with
    | none => []
    | some content =>
      ((jsSplit nlStr content).mapIdx (fun i line =>
        if env.regexTest pattern line then
          some (file ++ str ":" ++ natChars (i + 1) ++ str ": " ++ line)
        else none)).filterMap id)
  if results.length = 0 then str "(no matches)" else List.intercalate nlStr results

/-- The parsed JSON argument object of a tool call, in the shapes the
handlers destructure; `other` stands for any parsed object of a different
shape (on which a handler fails, modelled as a thrown error). -/
inductive ToolArgs where
  | read (path : List Char) (offset : Option Nat) (limit : Option Nat)
  | write (path content : List Char)
  | edit (path oldS newS : List Char) (all : Bool)
  | bash (cmd : List Char)
  | glob (pattern : List Char) (dir : Option (List Char))
  | grep (pattern : List Char) (dir : Option (List Char)) (incl : Option (List Char))
  | other

/-- A tool handler: parsed arguments and the file system, to a thrown
error or a result string with the updated file system. -/
def Handler : Type := ToolArgs → FS → Except (List Char) (List Char × FS)

/-- The thrown error of a handler applied to arguments of the wrong
shape. -/
def badArgsMsg : List Char := str "invalid arguments"

/-- The handler registry `toolHandlers` of src/tools.ts, with the source's
argument defaults (offset 0, dir the current directory, include
everything). -/
def toolHandlers (env : SysEnv) : List (List Char × Handler) :=
  [ (str "read", fun a fs =>
      match a with
      | ToolArgs.read path offset limit =>
        (read fs path (offset.getD 0) limit).map (fun r => (r, fs))
      | _ => Except.error badArgsMsg),
    (str "write", fun a fs =>
      match a with
      | ToolArgs.write path content => Except.ok (write fs path content)
      | _ => Except.error badArgsMsg),
    (str "edit", fun a fs =>
      match a with
      | ToolArgs.edit path oldS newS all => edit fs path oldS newS all
      | _ => Except.error badArgsMsg),
    (str "bash", fun a fs =>
      match a with
      | ToolArgs.bash cmd => Except.ok (bash env cmd, fs)
      | _ => Except.error badArgsMsg),
    (str "glob", fun a fs =>
      match a with
      | ToolArgs.glob pattern dir => Except.ok (glob env pattern (dir.getD (str ".")), fs)
      | _ => Except.error badArgsMsg),
    (str "grep", fun a fs =>
      match a with
      | ToolArgs.grep pattern dir incl =>
        Except.ok (grep env fs pattern (dir.getD (str ".")) (incl.getD (str "**/*")), fs)
      | _ => Except.error badArgsMsg) ]

/-- Dispatch (`executeTool`): look up the handler; an unknown name yields the fixed
error string; a handler exception is caught and converted to an
`error: `-prefixed result.  Total, so it always returns a string. -/
def executeTool (env : SysEnv) (name : List Char) (args : ToolArgs) (fs : FS) :
    List Char × FS :=
  match List.lookup name (toolHandlers env) with
  | none => (str "error: unknown tool \"" ++ name ++ str "\"", fs)
  | some h =>
    match h args fs with
    | Except.ok r => r
    | Except.error e => (str "error: " ++ e, fs)

/-! The agent orchestration loop (runAgentLoop). -/

/-- A tool call requested by the model: correlation id, tool name, raw
JSON argument text. -/
structure ToolCall where
  id : List Char
  name : List Char
  args : List Char
  deriving DecidableEq

/-- A conversation message, tagged by role. -/
inductive Message where
  | system (content : List Char)
  | user (content : List Char)
  | assistant (content : Option (List Char)) (tool_calls : Option (List ToolCall))
  | tool (tool_call_id : List Char) (content : List Char)

/-- The model's reply, as destructured from the first choice. -/
structure LLMReply where
  content : Option (List Char)
  tool_calls : Option (List ToolCall)
  finish_reason : List Char

/-- The orchestrator environment: the model as a deterministic oracle over
the submitted history; the operator's confirmation answers, consumed in
prompt order; the dangerous-tool set (the orchestrator brings it in from
the tool module, whose exporting definition is not among the sources, so
the set is a parameter of the model); the JSON parser for raw argument
text; and the system oracles. -/
structure AgentEnv where
  llm : List Message → LLMReply
  answers : Nat → List Char
  dangerous : List (List Char)
  parseJson : List Char → Except (List Char) ToolArgs
  sys : SysEnv

/-- The orchestrator's state: the conversation history, the file system,
the number of model invocations and of confirmation prompts so far, and
whether the safety-limit stop was reported. -/
structure AgentState where
  messages : List Message
  fs : FS
  llmCalls : Nat
  confirmCount : Nat
  safetyReport : Bool

/-- The iteration cap of the agent loop. -/
def MAX_AGENT_LOOPS : Nat := 10

/-- Handling of one requested tool call (the body of the for loop of
`runAgentLoop`): parse the raw arguments — a parse failure becomes an
error-string result and no handler runs; confirm when the tool is
dangerous — a non-`y` answer yields the denial sentinel and no handler
runs; otherwise dispatch.  The result is appended as a `tool` message. -/
def processCall (env : AgentEnv) (st : AgentState) (tc : ToolCall) : AgentState :=
  match env.parseJson tc.args with
  | Except.error em =>
    let result := str "error: invalid tool arguments JSON (" ++ em ++ str ")"
    { st with messages := st.messages ++ [Message.tool tc.id result] }
  | Except.ok args =>
    if tc.name ∈ env.dangerous then
      if jsToLower (env.answers st.confirmCount) = str "y" then
        let er := executeTool env.sys tc.name args st.fs
        { st with
          messages := st.messages ++ [Message.tool tc.id er.1],
          fs := er.2,
          confirmCount := st.confirmCount + 1 }
      else
        { st with
          messages := st.messages ++ [Message.tool tc.id (str "denied by user")],
          confirmCount := st.confirmCount + 1 }
    else
      let er := executeTool env.sys tc.name args st.fs
      { st with
        messages := st.messages ++ [Message.tool tc.id er.1],
        fs := er.2 }

/-- The while loop of `runAgentLoop`, `steps` being the source's counter:
stop with the safety report past the cap; otherwise invoke the model,
append the assistant message, stop on a `'stop'` finish reason or absent
tool calls, else process each call in order and iterate.  The loop is
intrinsically bounded by the cap; the fuel argument only makes the
recursion structural and is supplied large enough by `runAgentLoop` for
the exhaustion branch to be unreachable. -/
def loopGo (env : AgentEnv) : Nat → AgentState → Nat → AgentState
  | 0, st, _ => st
  | fuel + 1, st, steps =>
    if MAX_AGENT_LOOPS < steps + 1 then
      { st with safetyReport := true }
    else
      let reply := env.llm st.messages
      let st1 : AgentState :=
        { st with
          messages := st.messages ++ [Message.assistant reply.content reply.tool_calls],
          llmCalls := st.llmCalls + 1 }
      if reply.finish_reason = str "stop" ∨ reply.tool_calls = none then st1
      else
        let st2 := (reply.tool_calls.getD []).foldl (processCall env) st1
        loopGo env fuel st2 (steps + 1)

/-- One orchestrator turn: append the user message, then run the loop. -/
def runAgentLoop (env : AgentEnv) (st : AgentState) (userMessage : List Char) :
    AgentState :=
  loopGo env (MAX_AGENT_LOOPS + 1)
    { st with messages := st.messages ++ [Message.user userMessage] } 0

/-! Auxiliary lemmas for the claim theorems. -/

theorem countOcc_nil_pat (text : List Char) : countOcc [] text = text.length + 1 := by
  unfold countOcc
  rw [List.filter_eq_self.mpr (by intro a _; simp [occAt])]
  exact List.length_range _

theorem lookup_none_of_keys_ne (name : List Char) :
    ∀ l : List (List Char × Handler), (∀ kv ∈ l, kv.1 ≠ name) →
      List.lookup name l = none := by
  intro l
  induction l with
  | nil => intro _; rfl
  | cons kv rest ih =>
    intro h
    obtain ⟨k, v⟩ := kv
    have hk : k ≠ name := h (k, v) (by simp)
    have hbeq : (name == k) = false := beq_eq_false_iff_ne.mpr (fun hc => hk hc.symm)
    simp only [List.lookup, hbeq]
    exact ih (fun x hx => h x (by simp [hx]))

theorem jsIncludes_nil_pat (text : List Char) : jsIncludes [] text = true := by
  cases text <;> simp [jsIncludes]

/-- Concrete closed-world oracles and states used by the witness and
counterexample instances below. -/
def sysEnv0 : SysEnv :=
  ⟨fun _ => ExecOutcome.success [] [], fun _ _ => [], fun _ _ => false⟩

def fs0 : FS := fun _ => none

def fsOf (path content : List Char) : FS :=
  fun p => if p = path then some content else none

/-- C1: for every tool name and argument object, `executeTool` returns a
string and never throws (it is a total function into result strings): a
name with no handler-table entry yields exactly
`error: unknown tool "<name>"`, and a matched handler's exception is
caught and converted to an `error: `-prefixed string. -/
theorem executeTool_contract (env : SysEnv) (name : List Char) (args : ToolArgs) (fs : FS) :
    ((∀ kv ∈ toolHandlers env, kv.1 ≠ name) →
      executeTool env name args fs =
        (str "error: unknown tool \"" ++ name ++ str "\"", fs)) ∧
    (∀ h, List.lookup name (toolHandlers env) = some h →
      ∀ e, h args fs = Except.error e →
        executeTool env name args fs = (str "error: " ++ e, fs)) := by
  constructor
  · intro hne
    unfold executeTool
    rw [lookup_none_of_keys_ne name (toolHandlers env) hne]
  · intro h hlk e he
    unfold executeTool
    rw [hlk]
    simp only [he]

/-- Witness for C1: the unknown name `zap` yields the exact unknown-tool
string, and the `edit` handler's exception on a missing file is converted
to an `error: `-prefixed result. -/
theorem executeTool_contract_witness :
    executeTool sysEnv0 (str "zap") ToolArgs.other fs0 =
      (str "error: unknown tool \"zap\"", fs0) ∧
    executeTool sysEnv0 (str "edit") (ToolArgs.edit (str "f") (str "a") (str "b") false) fs0 =
      (str "error: " ++ enoentMsg (str "f"), fs0) := by
  constructor
  · have h := (executeTool_contract sysEnv0 (str "zap") ToolArgs.other fs0).1 ?hne
    · rw [h]; rfl
    case hne =>
      intro kv hkv
      simp only [toolHandlers, List.mem_cons, List.not_mem_nil, or_false] at hkv
      rcases hkv with h | h | h | h | h | h
      all_goals (subst h; decide)
  · exact (executeTool_contract sysEnv0 (str "edit")
      (ToolArgs.edit (str "f") (str "a") (str "b") false) fs0).2
      _ rfl (enoentMsg (str "f")) rfl

/-- The oracle of a shell whose only command exits non-zero with no output:
the rejection carries only the Error message. -/
def sysEnvFail : SysEnv :=
  ⟨fun _ => ExecOutcome.failure false [] [] (str "Command failed: false"),
   fun _ _ => [], fun _ _ => false⟩

/-- Counterexample to C9 as stated: a shell command exiting non-zero
produces the error's message verbatim, which is not prefixed with
`error: `. -/
theorem bash_nonzero_unprefixed_cex :
    bash sysEnvFail (str "false") = str "Command failed: false" ∧
    ¬ (str "error: ") <+: bash sysEnvFail (str "false") := by
  constructor
  · rfl
  · decide

/-- C9 amended: every failing execution still yields a result string and
never an out-of-band exception — `executeTool` on `bash` is total and
returns, for a killed process, the timeout sentinel, and for any other
failure the command's own stdout, else stderr, else the error message,
else `error` — but the result of a non-zero exit is not `error: `-prefixed. -/
theorem bash_failure_result (env : SysEnv) (fs : FS) (cmd : List Char)
    (k : Bool) (out err msg : List Char)
    (hexec : env.exec cmd = ExecOutcome.failure k out err msg) :
    executeTool env (str "bash") (ToolArgs.bash cmd) fs =
      ((if k then str "(timed out after 30s)"
        else jsOr out (jsOr err (jsOr msg (str "error")))), fs) := by
  have hlk : List.lookup (str "bash") (toolHandlers env) =
      some (fun a fs =>
        match a with
        | ToolArgs.bash cmd => Except.ok (bash env cmd, fs)
        | _ => Except.error badArgsMsg) := rfl
  unfold executeTool
  rw [hlk]
  simp only [bash, hexec]

/-- Witness for C9's amended claim at the concrete failing shell. -/
theorem bash_failure_result_witness :
    executeTool sysEnvFail (str "bash") (ToolArgs.bash (str "false")) fs0 =
      (jsOr [] (jsOr [] (jsOr (str "Command failed: false") (str "error"))), fs0) := by
  have h := bash_failure_result sysEnvFail fs0 (str "false") false [] []
    (str "Command failed: false") rfl
  simpa using h

/-- Counterexample to C2 as stated: in the file `abcd` the string `bc`
occurs exactly once, yet `edit` without `all` and with the replacement
`$&` does not produce the original with that span replaced by the literal
replacement — ECMAScript substitution expands `$&` to the matched text,
so the program leaves the content `abcd`, not `a$&d`. -/
theorem edit_unique_literal_cex :
    countOcc (str "bc") (str "abcd") = 1 ∧
    edit (fsOf (str "f") (str "abcd")) (str "f") (str "bc") (str "$&") false =
      Except.ok (str "ok",
        fsWrite (fsOf (str "f") (str "abcd")) (str "f") (str "abcd")) ∧
    str "abcd" ≠
      (str "abcd").take 1 ++ str "$&" ++ (str "abcd").drop (1 + (str "bc").length) := by
  refine ⟨by decide, rfl, by decide⟩

/-- C2 amended: when `old` occurs exactly once in the file content, `edit`
without `all` succeeds with `ok` and the file's new content is the
original with exactly that occurrence's span replaced by the ECMAScript
substitution of `new` against the match (dollar patterns expanded); when
`new` contains no dollar sign, this is the literal `new`. -/
theorem edit_unique_replaces (fs : FS) (path oldS newS text : List Char) (i : Nat)
    (hfs : fs path = some text) (hc : countOcc oldS text = 1) (hi : occAt oldS text i) :
    edit fs path oldS newS false =
      Except.ok (str "ok",
        fsWrite fs path
          (text.take i ++
            getSubst oldS (text.take i) (text.drop (i + oldS.length)) newS ++
            text.drop (i + oldS.length))) ∧
    ('$' ∉ newS →
      edit fs path oldS newS false =
        Except.ok (str "ok",
          fsWrite fs path (text.take i ++ newS ++ text.drop (i + oldS.length)))) := by
  have hmain : edit fs path oldS newS false =
      Except.ok (str "ok",
        fsWrite fs path
          (text.take i ++
            getSubst oldS (text.take i) (text.drop (i + oldS.length)) newS ++
            text.drop (i + oldS.length))) := by
    unfold edit
    rw [hfs]
    dsimp only
    by_cases ho : oldS = []
    · subst ho
      have hn := countOcc_nil_pat text
      rw [hc] at hn
      have htext : text = [] := by
        cases text with
        | nil => rfl
        | cons c r => simp at hn
      subst htext
      simp [jsIncludes, jsSplit, jsReplace, jsReplaceGo, List.isPrefixOf]
    · have hinc : jsIncludes oldS text = true :=
        (jsIncludes_iff oldS text).mpr (infix_of_occ oldS text i hi)
      have hsplit : jsSplit oldS text = splitGo oldS text := by simp [jsSplit, ho]
      have hlen2 : (splitGo oldS text).length ≤ 2 := by
        have h1 := splitGo_len_le oldS text
        omega
      rw [if_neg (by simp [hinc])]
      rw [hsplit]
      rw [if_neg (by
        intro hcon
        have h2 := hcon.2
        have h3 : (2 : Int) < ((splitGo oldS text).length : Int) := by omega
        have h4 : (2 : Nat) < (splitGo oldS text).length := by exact_mod_cast h3
        omega)]
      rw [jsReplace_uniqueOcc oldS newS ho text i hc hi]
      simp
  refine ⟨hmain, fun hd => ?_⟩
  rw [getSubst_no_dollar oldS (text.take i) (text.drop (i + oldS.length)) newS hd] at hmain
  exact hmain

/-- Witness for C2's amended claim: replacing the unique occurrence of
`bc` in `abcd` with the dollar-free `XY`. -/
theorem edit_unique_replaces_witness :
    edit (fsOf (str "f") (str "abcd")) (str "f") (str "bc") (str "XY") false =
      Except.ok (str "ok",
        fsWrite (fsOf (str "f") (str "abcd")) (str "f")
          ((str "abcd").take 1 ++
            getSubst (str "bc") ((str "abcd").take 1)
              ((str "abcd").drop (1 + (str "bc").length)) (str "XY") ++
            (str "abcd").drop (1 + (str "bc").length))) ∧
    edit (fsOf (str "f") (str "abcd")) (str "f") (str "bc") (str "XY") false =
      Except.ok (str "ok",
        fsWrite (fsOf (str "f") (str "abcd")) (str "f")
          ((str "abcd").take 1 ++ str "XY" ++
            (str "abcd").drop (1 + (str "bc").length))) := by
  have h := edit_unique_replaces (fsOf (str "f") (str "abcd")) (str "f") (str "bc")
    (str "XY") (str "abcd") 1 rfl (by decide) (by decide)
  exact ⟨h.1, h.2 (by decide)⟩

/-- Counterexample to C3 as stated: in `aaa` the string `aa` occurs twice
(at positions 0 and 1), yet `edit` without `all` does not return an error —
the split-based count is 1, so it replaces the first occurrence and
modifies the file. -/
theorem edit_overlap_count_cex :
    countOcc (str "aa") (str "aaa") = 2 ∧
    edit (fsOf (str "f") (str "aaa")) (str "f") (str "aa") (str "b") false =
      Except.ok (str "ok", fsWrite (fsOf (str "f") (str "aaa")) (str "f") (str "ba")) := by
  exact ⟨by decide, rfl⟩

/-- C3 amended: `edit` is atomic on its error paths — a content with zero
occurrences of `old` yields the not-found error and no write, and a content
in which `old` occurs more than once counted as left-to-right
non-overlapping matches (the source's split-based count), without `all`,
yields an error reporting that count and no write.  (With overlapping
occurrences the position count can exceed 1 while the non-overlapping
count is 1, and the edit then proceeds.) -/
theorem edit_error_paths (fs : FS) (path oldS newS text : List Char) (n : Nat)
    (hfs : fs path = some text) :
    (countOcc oldS text = 0 →
      edit fs path oldS newS false =
        Except.ok (str "error: old string not found", fs)) ∧
    ((jsSplit oldS text).length = n + 1 → 1 < n →
      edit fs path oldS newS false =
        Except.ok (str "error: old string appears " ++ intChars (n : Int) ++
          str " times, must be unique (or use all=true)", fs)) := by
  constructor
  · intro hzero
    have hninc : jsIncludes oldS text = false := by
      by_contra hcon
      have htrue : jsIncludes oldS text = true := by
        cases hj : jsIncludes oldS text with
        | true => rfl
        | false => exact absurd hj hcon
      obtain ⟨j, hj, hocc⟩ := infix_to_occ oldS text ((jsIncludes_iff oldS text).mp htrue)
      have := countOcc_pos oldS text j hj hocc
      omega
    unfold edit
    rw [hfs]
    dsimp only
    rw [if_pos (by simp [hninc])]
  · intro hsplen hn
    have hinc : jsIncludes oldS text = true := by
      by_cases ho : oldS = []
      · subst ho; exact jsIncludes_nil_pat text
      · by_contra hcon
        have hfalse : jsIncludes oldS text = false := by
          cases hj : jsIncludes oldS text with
          | true => exact absurd hj hcon
          | false => rfl
        have hni : ¬ oldS <:+: text := by
          intro hin
          rw [(jsIncludes_iff oldS text).mpr hin] at hfalse
          cases hfalse
        have hone : jsSplit oldS text = [text] := by
          simp only [jsSplit, ho, if_false]
          exact splitGo_eq_single oldS text hni
        rw [hone] at hsplen
        simp at hsplen
        omega
    unfold edit
    rw [hfs]
    dsimp only
    rw [if_neg (by simp [hinc])]
    rw [hsplen]
    rw [if_pos (by
      constructor
      · simp
      · push_cast
        omega)]
    have hcast : ((n + 1 : Nat) : Int) - 1 = (n : Int) := by push_cast; omega
    rw [hcast]

/-- Witness for C3's amended claim: the not-found path on `xyz`, and the
ambiguity path on `abab` where `ab` has non-overlapping count 2. -/
theorem edit_error_paths_witness :
    edit (fsOf (str "f") (str "xyz")) (str "f") (str "q") (str "r") false =
      Except.ok (str "error: old string not found", fsOf (str "f") (str "xyz")) ∧
    edit (fsOf (str "g") (str "abab")) (str "g") (str "ab") (str "r") false =
      Except.ok (str "error: old string appears " ++ intChars (2 : Int) ++
        str " times, must be unique (or use all=true)", fsOf (str "g") (str "abab")) := by
  constructor
  · exact (edit_error_paths (fsOf (str "f") (str "xyz")) (str "f") (str "q") (str "r")
      (str "xyz") 0 rfl).1 (by decide)
  · exact (edit_error_paths (fsOf (str "g") (str "abab")) (str "g") (str "ab") (str "r")
      (str "abab") 2 rfl).2 (by decide) (by decide)

/-- Counterexample to C4 as stated: editing the file `a` with
`all = true`, `old = a`, `new = aa` succeeds, but the new content `aa`
still contains an occurrence of `old`; and with the replacement `$&` on
the file `ab`, ECMAScript substitution keeps each matched text, so the
content stays `ab` rather than the split segments joined by the literal
replacement. -/
theorem edit_all_residual_cex :
    (edit (fsOf (str "f") (str "a")) (str "f") (str "a") (str "aa") true =
      Except.ok (str "ok", fsWrite (fsOf (str "f") (str "a")) (str "f") (str "aa")) ∧
    (str "a") <:+: (str "aa")) ∧
    (edit (fsOf (str "g") (str "ab")) (str "g") (str "a") (str "$&") true =
      Except.ok (str "ok", fsWrite (fsOf (str "g") (str "ab")) (str "g") (str "ab")) ∧
    str "ab" ≠ List.intercalate (str "$&") (jsSplit (str "a") (str "ab"))) := by
  exact ⟨⟨rfl, by decide⟩, rfl, by decide⟩

/-- C4 amended: with `all = true` and a non-empty `old` occurring in the
file, every left-to-right non-overlapping occurrence is replaced — the
new content is the segments of the original split at those occurrences,
interleaved with the per-match ECMAScript substitution of `new`; when
`new` contains no dollar sign this is the segments joined by the literal
`new`; and no segment contains `old` — but occurrences of `old` can
reappear in the joined result (from the inserted text or across seams),
so the result need not be free of `old`. -/
theorem edit_all_replaces (fs : FS) (path oldS newS text : List Char)
    (hfs : fs path = some text) (ho : oldS ≠ []) (hin : oldS <:+: text) :
    edit fs path oldS newS true =
      Except.ok (str "ok",
        fsWrite fs path (joinSubst oldS newS [] (jsSplit oldS text))) ∧
    ('$' ∉ newS →
      edit fs path oldS newS true =
        Except.ok (str "ok",
          fsWrite fs path (List.intercalate newS (jsSplit oldS text)))) ∧
    ∀ p ∈ jsSplit oldS text, ¬ oldS <:+: p := by
  have hsplit : jsSplit oldS text = splitGo oldS text := by simp [jsSplit, ho]
  have hmain : edit fs path oldS newS true =
      Except.ok (str "ok",
        fsWrite fs path (joinSubst oldS newS [] (jsSplit oldS text))) := by
    unfold edit
    rw [hfs]
    dsimp only
    rw [if_neg (by simp [(jsIncludes_iff oldS text).mpr hin])]
    rw [if_neg (by intro hcon; simp at hcon)]
    rw [if_pos rfl]
    simp only [jsReplaceAll, ho, if_false]
    rw [replAllFrom_eq_joinSubst oldS newS ho text [], hsplit]
  refine ⟨hmain, fun hd => ?_, ?_⟩
  · rw [joinSubst_no_dollar oldS newS hd (jsSplit oldS text) []] at hmain
    exact hmain
  · rw [hsplit]
    exact splitGo_parts oldS ho text

/-- Witness for C4's amended claim on `aaaa` with `old = aa` and the
dollar-free replacement `b`. -/
theorem edit_all_replaces_witness :
    edit (fsOf (str "f") (str "aaaa")) (str "f") (str "aa") (str "b") true =
      Except.ok (str "ok",
        fsWrite (fsOf (str "f") (str "aaaa")) (str "f")
          (joinSubst (str "aa") (str "b") [] (jsSplit (str "aa") (str "aaaa")))) ∧
    edit (fsOf (str "f") (str "aaaa")) (str "f") (str "aa") (str "b") true =
      Except.ok (str "ok",
        fsWrite (fsOf (str "f") (str "aaaa")) (str "f")
          (List.intercalate (str "b") (jsSplit (str "aa") (str "aaaa")))) ∧
    ∀ p ∈ jsSplit (str "aa") (str "aaaa"), ¬ (str "aa") <:+: p := by
  have h := edit_all_replaces (fsOf (str "f") (str "aaaa")) (str "f") (str "aa") (str "b")
    (str "aaaa") rfl (by decide) (by decide)
  exact ⟨h.1, h.2.1 (by decide), h.2.2⟩

/-- Slicing with offset 0 and no limit is the identity: the full range of
numbered lines. -/
theorem readLines_full (content : List Char) :
    readLines content 0 none =
      (jsSplit nlStr content).mapIdx (fun k line => renderLine (k + 1) line) := by
  unfold readLines readEnd
  dsimp only
  rw [List.drop_zero, Nat.sub_zero, List.take_length]
  simp [Nat.zero_add]

/-- C5: round trip of write then read — after `write(path, content)`,
reading the path succeeds and yields the numbered rendering; the full
range renders every line of the content with its 1-based number; and on
every offset/limit slice, the i-th returned line is the file's line
`offset + i` rendered with number `offset + i + 1`, its true file
position, independently of the slice. -/
theorem read_write_round_trip (fs : FS) (path content : List Char)
    (offset : Nat) (limit : Option Nat) (i : Nat)
    (hi : i < (readLines content offset limit).length) :
    read (write fs path content).2 path offset limit =
      Except.ok (List.intercalate nlStr (readLines content offset limit)) ∧
    readLines content 0 none =
      (jsSplit nlStr content).mapIdx (fun k line => renderLine (k + 1) line) ∧
    (readLines content offset limit)[i]? =
      ((jsSplit nlStr content)[offset + i]?).map (renderLine (offset + i + 1)) := by
  refine ⟨?_, readLines_full content, ?_⟩
  · unfold read write fsWrite
    simp
  · have hi' := hi
    unfold readLines at hi' ⊢
    dsimp only at hi' ⊢
    rw [List.getElem?_mapIdx]
    rw [List.length_mapIdx, List.length_take, List.length_drop] at hi'
    have hiE : i < readEnd (jsSplit nlStr content) offset limit - offset :=
      lt_of_lt_of_le hi' (min_le_left _ _)
    rw [List.getElem?_take, if_pos hiE, List.getElem?_drop]

/-- Witness for C5 on the file `a\nb\nc` with offset 1 and limit 1. -/
theorem read_write_round_trip_witness :
    read (write fs0 (str "f") (str "a\nb\nc")).2 (str "f") 1 (some 1) =
      Except.ok (List.intercalate nlStr (readLines (str "a\nb\nc") 1 (some 1))) ∧
    readLines (str "a\nb\nc") 0 none =
      (jsSplit nlStr (str "a\nb\nc")).mapIdx (fun k line => renderLine (k + 1) line) ∧
    (readLines (str "a\nb\nc") 1 (some 1))[0]? =
      ((jsSplit nlStr (str "a\nb\nc"))[1 + 0]?).map (renderLine (1 + 0 + 1)) :=
  read_write_round_trip fs0 (str "f") (str "a\nb\nc") 1 (some 1) 0 (by decide)

/-- C10: the full range of `read` renders exactly one numbered line per
newline character plus one, and for a content ending in a newline the
final rendered line is the numbered empty line after that newline. -/
theorem read_line_count (content : List Char) :
    (readLines content 0 none).length = content.count '\n' + 1 ∧
    (content.getLast? = some '\n' →
      (readLines content 0 none).getLast? =
        some (renderLine (content.count '\n' + 1) [])) := by
  have hsplit : jsSplit nlStr content = splitGo ['\n'] content := by
    simp [jsSplit, nlStr]
  have hlen : (jsSplit nlStr content).length = content.count '\n' + 1 := by
    rw [hsplit]; exact splitGo_single_length '\n' content
  constructor
  · rw [readLines_full content]
    simp [List.length_mapIdx, hlen]
  · intro hlast
    rw [readLines_full content]
    have hlast2 : (jsSplit nlStr content).getLast? = some [] := by
      rw [hsplit]; exact splitGo_single_getLast '\n' content hlast
    rw [List.getLast?_eq_getElem?] at hlast2 ⊢
    rw [List.length_mapIdx, List.getElem?_mapIdx, hlast2]
    have hidx : (jsSplit nlStr content).length - 1 + 1 = content.count '\n' + 1 := by
      omega
    simp only [hidx]
    rfl

/-- Witness for C10 on the newline-terminated content `ab\n`. -/
theorem read_line_count_witness :
    (readLines (str "ab\n") 0 none).length = 2 ∧
    (readLines (str "ab\n") 0 none).getLast? = some (renderLine 2 []) := by
  have h := read_line_count (str "ab\n")
  constructor
  · rw [h.1]; decide
  · rw [h.2 (by decide)]; decide

/-! Invariants of the per-call handler used by the loop claims. -/

theorem processCall_llmCalls (env : AgentEnv) (st : AgentState) (tc : ToolCall) :
    (processCall env st tc).llmCalls = st.llmCalls := by
  unfold processCall
  cases hp : env.parseJson tc.args with
  | error em => rfl
  | ok a =>
    dsimp only
    by_cases hd : tc.name ∈ env.dangerous
    · rw [if_pos hd]
      by_cases hy : jsToLower (env.answers st.confirmCount) = str "y"
      · rw [if_pos hy]
      · rw [if_neg hy]
    · rw [if_neg hd]

theorem foldl_processCall_llmCalls (env : AgentEnv) :
    ∀ (l : List ToolCall) (st : AgentState),
      (l.foldl (processCall env) st).llmCalls = st.llmCalls := by
  intro l
  induction l with
  | nil => intro st; rfl
  | cons tc rest ih =>
    intro st
    rw [List.foldl_cons, ih, processCall_llmCalls]

/-- The inductive core of the safety cap: from any step count within the
cap and exactly enough fuel, a model that always wants to continue drives
exactly the remaining number of invocations and the safety report. -/
theorem loopGo_cap (env : AgentEnv)
    (hllm : ∀ hist, (env.llm hist).finish_reason ≠ str "stop" ∧
      (env.llm hist).tool_calls ≠ none) :
    ∀ fuel steps st, steps ≤ MAX_AGENT_LOOPS → steps + fuel = MAX_AGENT_LOOPS + 1 →
      (loopGo env fuel st steps).llmCalls = st.llmCalls + (MAX_AGENT_LOOPS - steps) ∧
      (loopGo env fuel st steps).safetyReport = true := by
  intro fuel
  induction fuel with
  | zero =>
    intro steps st h1 h2
    omega
  | succ f ih =>
    intro steps st h1 h2
    by_cases hcap : MAX_AGENT_LOOPS < steps + 1
    · have hs : steps = MAX_AGENT_LOOPS := by omega
      subst hs
      simp only [loopGo, hcap, if_true]
      exact ⟨by omega, by trivial⟩
    · simp only [loopGo, hcap, if_false]
      rw [if_neg (by push_neg; exact ⟨(hllm st.messages).1, (hllm st.messages).2⟩)]
      have hrec := ih (steps + 1)
        ((((env.llm st.messages).tool_calls.getD []).foldl (processCall env)
          { st with
            messages := st.messages ++
              [Message.assistant (env.llm st.messages).content (env.llm st.messages).tool_calls],
            llmCalls := st.llmCalls + 1 }))
        (by omega) (by omega)
      refine ⟨?_, hrec.2⟩
      rw [hrec.1, foldl_processCall_llmCalls]
      show st.llmCalls + 1 + (MAX_AGENT_LOOPS - (steps + 1)) =
        st.llmCalls + (MAX_AGENT_LOOPS - steps)
      omega

/-- C6: against a model that requests tool calls indefinitely with a
non-stop finish reason, one orchestrator turn performs exactly
`MAX_AGENT_LOOPS` (10) model invocations, then stops with the
safety-limit report; the loop never runs forever (it is a total
function). -/
theorem loop_safety_cap (env : AgentEnv) (st : AgentState) (userMessage : List Char)
    (hllm : ∀ hist, (env.llm hist).finish_reason ≠ str "stop" ∧
      (env.llm hist).tool_calls ≠ none) :
    (runAgentLoop env st userMessage).llmCalls = st.llmCalls + MAX_AGENT_LOOPS ∧
    (runAgentLoop env st userMessage).safetyReport = true := by
  unfold runAgentLoop
  have h := loopGo_cap env hllm (MAX_AGENT_LOOPS + 1) 0
    { st with messages := st.messages ++ [Message.user userMessage] }
    (by omega) (by omega)
  simpa using h

/-- A scripted model that always requests (an empty list of) tool calls
with finish reason `length`, and a JSON parser that always fails. -/
def envLoop : AgentEnv :=
  ⟨fun _ => ⟨none, some [], str "length"⟩, fun _ => str "", [],
   fun _ => Except.error (str "x"), sysEnv0⟩

def st0 : AgentState := ⟨[], fs0, 0, 0, false⟩

/-- Witness for C6: the scripted never-stopping model drives exactly 10
invocations and the safety report. -/
theorem loop_safety_cap_witness :
    (runAgentLoop envLoop st0 (str "go")).llmCalls = st0.llmCalls + MAX_AGENT_LOOPS ∧
    (runAgentLoop envLoop st0 (str "go")).safetyReport = true := by
  apply loop_safety_cap
  intro hist
  constructor
  · show ¬ str "length" = str "stop"
    decide
  · show ¬ (some ([] : List ToolCall)) = none
    simp

/-- C7: a tool call naming a dangerous tool whose confirmation is not
answered with `y` is never dispatched — the state is unchanged except
that the consumed answer is counted and the appended tool message's
content is exactly `denied by user`; in particular the file system (the
tool's would-be side effect) is untouched. -/
theorem denied_dangerous_call (env : AgentEnv) (st : AgentState) (tc : ToolCall)
    (a : ToolArgs) (hparse : env.parseJson tc.args = Except.ok a)
    (hdang : tc.name ∈ env.dangerous)
    (hans : jsToLower (env.answers st.confirmCount) ≠ str "y") :
    processCall env st tc =
      { st with
        messages := st.messages ++ [Message.tool tc.id (str "denied by user")],
        confirmCount := st.confirmCount + 1 } := by
  unfold processCall
  rw [hparse]
  dsimp only
  rw [if_pos hdang, if_neg hans]

/-- An environment whose only dangerous tool is `write`, whose operator
always answers `n`, and whose parser always returns a `write` call. -/
def envDeny : AgentEnv :=
  ⟨fun _ => ⟨none, none, str "stop"⟩, fun _ => str "n", [str "write"],
   fun _ => Except.ok (ToolArgs.write (str "f") (str "x")), sysEnv0⟩

/-- Witness for C7: the denied `write` leaves the file system untouched
and appends exactly the denial sentinel. -/
theorem denied_dangerous_call_witness :
    processCall envDeny st0 ⟨str "1", str "write", str ""⟩ =
      { st0 with
        messages := st0.messages ++ [Message.tool (str "1") (str "denied by user")],
        confirmCount := st0.confirmCount + 1 } :=
  denied_dangerous_call envDeny st0 ⟨str "1", str "write", str ""⟩
    (ToolArgs.write (str "f") (str "x")) rfl (by decide) (by decide)

/-- C8: a tool call whose raw argument text fails to parse is recovered
locally — the orchestrator (a total function, so it cannot throw) appends
a tool message whose content is the error-prefixed parse-failure string,
no handler is invoked (the state is otherwise unchanged, including the
file system), and the loop continues with the next call. -/
theorem malformed_args_recovered (env : AgentEnv) (st : AgentState) (tc : ToolCall)
    (em : List Char) (hparse : env.parseJson tc.args = Except.error em) :
    processCall env st tc =
      { st with
        messages := st.messages ++
          [Message.tool tc.id
            (str "error: invalid tool arguments JSON (" ++ em ++ str ")")] } := by
  unfold processCall
  rw [hparse]

/-- Witness for C8 with the always-failing parser of `envLoop`. -/
theorem malformed_args_recovered_witness :
    processCall envLoop st0 ⟨str "1", str "read", str "not json"⟩ =
      { st0 with
        messages := st0.messages ++
          [Message.tool (str "1")
            (str "error: invalid tool arguments JSON (" ++ str "x" ++ str ")")] } :=
  malformed_args_recovered envLoop st0 ⟨str "1", str "read", str "not json"⟩
    (str "x") rfl

end Nanocode
